import Mathlib

/-!
Verification development for the yang2-rs data-tree core (`src/data.rs`).

The Rust layer under `src/` is a safe wrapper over the libyang2 C library.
Functions implemented in Rust itself (`Data::find_single`, `Data::find`'s
result-set construction, `DataTree::new`, `DataTree::remove`,
`DataNodeRef::value`, `DataNodeRef::siblings`, `DataDiff::iter`) are embedded
directly from the source.  Operations performed by the C library
(`lyd_find_xpath`, `lyd_validate_all`, `lyd_free_tree`, `lyd_diff_siblings`,
`lyd_diff_apply_all`, `lyd_diff_reverse_all`, `lyd_dup_siblings`) and the
iterator protocols of `crate::iter` are modelled from the specification, as
noted on each definition.
-/

namespace Yang2

/-- Embedded from `libyang2_sys::LY_ERR` as used by `src/data.rs`: only the
success code and the not-found code appear literally in the Rust source; all
other failure codes are collapsed into representative constructors. -/
inductive LYErr where
  | LY_SUCCESS
  | LY_ENOTFOUND
  | LY_EVALID
  | LY_EOTHER
  deriving DecidableEq, Repr

/-- Embedded from `crate::error::Error` as constructed literally in
`src/data.rs` (fields `errcode`, `msg`, `path`, `apptag`). -/
structure Error where
  errcode : LYErr
  msg : Option String
  path : Option String
  apptag : Option String
  deriving DecidableEq, Repr

/-- Embedded from `crate::schema::SchemaNodeKind` as matched on by
`DataNodeRef::value` in `src/data.rs`; the payloads of `Leaf`/`LeafList`
(type descriptors) are irrelevant to the embedded operations and omitted. -/
inductive SchemaNodeKind where
  | container
  | list
  | leaf
  | leafList
  | anydata
  deriving DecidableEq, Repr

/-- A data node: the shallow embedding of `lyd_node` as observed through
`DataNodeRef` (`src/data.rs`): an identity (standing for the node's schema
name plus key values, i.e. instance identity), the schema kind, the canonical
value of a terminal node (`None` models a null canonical pointer), the
metadata chain (name/value pairs, in chain order), and the child list (first
child plus the sibling chain, in document order). -/
inductive DNode where
  | mk : Nat → SchemaNodeKind → Option String → List (String × String) →
      List DNode → DNode

/-- A forest: a top-level sibling chain, i.e. the contents of a `DataTree`. -/
abbrev Forest := List DNode

def DNode.id : DNode → Nat
  | .mk i _ _ _ _ => i

def DNode.kind : DNode → SchemaNodeKind
  | .mk _ k _ _ _ => k

def DNode.canonical : DNode → Option String
  | .mk _ _ v _ _ => v

def DNode.meta : DNode → List (String × String)
  | .mk _ _ _ m _ => m

def DNode.children : DNode → List DNode
  | .mk _ _ _ _ cs => cs

mutual
/-- Modelled from the spec (§4.3 Traverse, `crate::iter::Traverse` is outside
`src/`): pre-order depth-first walk of a node and its subtree. -/
def traverseN : DNode → List DNode
  | .mk i k v m cs => .mk i k v m cs :: traverseF cs

/-- Modelled from the spec (§4.3/§4.4): `DataTree::traverse` walks every
top-level sibling and its subtree in sequence (`src/data.rs`,
`Siblings::new(Some(self.reference())).flat_map(traverse)`). -/
def traverseF : Forest → List DNode
  | [] => []
  | n :: rest => traverseN n ++ traverseF rest
end

/-- Embedded from `DataNodeRef::value` (`src/data.rs`): the canonical string
of a terminal (leaf / leaf-list) node, `none` for any other schema kind. -/
def DNode.value (n : DNode) : Option String :=
  match n.kind with
  | .leaf => n.canonical
  | .leafList => n.canonical
  | _ => none

/-- The view of a node without its child list: identity, schema kind,
canonical value and metadata.  Removing a descendant of a node changes the
node's child list but not its view; node references in the C library are
pointers, so a node "stays the same node" when its subtree shrinks, which in
this functional embedding is expressed by comparing views. -/
structure NodeView where
  id : Nat
  kind : SchemaNodeKind
  canonical : Option String
  meta : List (String × String)
  deriving DecidableEq, Repr

def DNode.view : DNode → NodeView
  | .mk i k v m _ => ⟨i, k, v, m⟩

/-- An XPath expression as consumed by the Path Query Evaluator, modelled
from the spec (§4.5, §6): the grammar itself is out of scope, so an
expression is abstracted to its source text, whether it is well formed, and
the selection predicate it denotes on nodes. -/
structure XPath where
  str : String
  wellFormed : Bool
  sel : DNode → Bool

/-- The ordered result set of a path query: the nodes of the tree-wide
pre-order traversal satisfying the expression's predicate (document order,
duplicate-free by node identity). Modelled from the spec (§4.5). -/
def matchesOf (t : Forest) (p : XPath) : List DNode :=
  (traverseF t).filter p.sel

/-- Modelled from the spec (§7): `Error::new(context)` retrieves the last
error recorded in the C context (`crate::error` is outside `src/`); its
contents are abstract, here a fixed evaluation-failure value. -/
def ctxError : Error := ⟨.LY_EVALID, some "context error", none, none⟩

/-- Modelled from the spec (§4.5): `lyd_find_xpath` (C library) evaluates the
expression, failing only when the expression itself cannot be evaluated, and
otherwise returns the matching nodes in document order. -/
def xpathEval (t : Forest) (p : XPath) : Except Error (List DNode) :=
  if p.wellFormed then .ok (matchesOf t p) else .error ctxError

/-- Embedded from `Data::find` (`src/data.rs`): on evaluator failure return
`Error::new(context)`; on success build the result set, using an empty slice
when the returned count is zero. -/
def Data.find (t : Forest) (p : XPath) : Except Error (List DNode) :=
  match xpathEval t p with
  | .error _ => .error ctxError
  | .ok nodes => .ok (if nodes.length = 0 then [] else nodes)

/-- Embedded from `Data::find_single` (`src/data.rs`): take the first
element of the result iterator; if a second exists, fail with the
more-than-one-node error, if none exists fail with the not-found error, both
carrying the queried path; otherwise return the single node. -/
def Data.find_single (t : Forest) (p : XPath) : Except Error DNode :=
  match Data.find t p with
  | .error e => .error e
  | .ok dnodes =>
    match dnodes with
    | _ :: _ :: _ =>
      .error ⟨.LY_ENOTFOUND, some "Path refers to more than one data node",
        some p.str, none⟩
    | [dnode] => .ok dnode
    | [] =>
      .error ⟨.LY_ENOTFOUND, some "Data node not found", some p.str, none⟩

mutual
/-- Modelled from the spec (§3 Node lifecycle, §4.4 remove; `lyd_free_tree`
is in the C library): deleting a node detaches it from its sibling chain and
frees its entire subtree.  The node to delete is designated by its instance
identity. -/
def removeByIdF (i : Nat) : Forest → Forest
  | [] => []
  | n :: rest =>
    if n.id = i then rest else removeByIdN i n :: removeByIdF i rest

def removeByIdN (i : Nat) : DNode → DNode
  | .mk j k v m cs => .mk j k v m (removeByIdF i cs)
end

/-- Embedded from `DataTree::remove` (`src/data.rs`): resolve the path with
`find_single`; on failure propagate the error with the tree untouched, on
success free the resolved node's subtree.  The returned pair models the
`&mut self` receiver next to the `Result<()>`. -/
def DataTree.remove (t : Forest) (p : XPath) :
    Except Error Unit × Forest :=
  match Data.find_single t p with
  | .error e => (.error e, t)
  | .ok dnode => (.ok (), removeByIdF dnode.id t)

/-- Embedded from `DataValidationFlags` (`src/data.rs`): the `NO_STATE` and
`PRESENT` bits. -/
structure DataValidationFlags where
  noState : Bool
  present : Bool
  deriving DecidableEq, Repr

/-- A schema context, modelled from the spec (§3, §4.4): of the compiled
schema only the datum relevant to the embedded operations is kept — the
identities of top-level mandatory schema nodes. -/
structure SContext where
  mandatoryTopLevel : List Nat
  deriving DecidableEq, Repr

/-- Modelled from the spec (§4.4 validate; `lyd_validate_all` is in the C
library): of full semantic validation only the mandatory-data check is
modelled — every top-level mandatory schema node must have an instance,
otherwise a ValidationError is raised.  The flags do not affect this
particular check. -/
def validateTree (ctx : SContext) (_flags : DataValidationFlags)
    (t : Forest) : Except Error Unit :=
  if ctx.mandatoryTopLevel.all (fun i => t.any (fun n => n.id == i)) then
    .ok ()
  else
    .error ⟨.LY_EVALID, some "Mandatory node missing", none, none⟩

/-- Embedded from `DataTree::new` (`src/data.rs`): build the tree from a null
root (no nodes) and immediately validate it with empty validation flags. -/
def DataTree.new (ctx : SContext) : Except Error Forest :=
  match validateTree ctx ⟨false, false⟩ [] with
  | .error e => .error e
  | .ok _ => .ok []

/-- Embedded from `DataDiffOp` (`src/data.rs`). -/
inductive DataDiffOp where
  | create
  | delete
  | replace
  deriving DecidableEq, Repr

/-- Embedded from `DataDiff::iter` (`src/data.rs`): the first metadata entry
named "operation", as found by `dnode.meta().find(...)`. -/
def opOf (n : DNode) : Option String :=
  (n.meta.find? (fun m => m.1 == "operation")).map (fun m => m.2)

/-- Embedded from the `filter_map` body of `DataDiff::iter` (`src/data.rs`),
applied to a list of traversed nodes.  The `unreachable!` panic on an
unrecognized operation value is modelled as `none` for the whole iteration
(the lazy Rust iterator panics at that node once the consumer reaches it;
the embedding materializes a full consumption). -/
def iterFold : List DNode → Option (List (DataDiffOp × DNode))
  | [] => some []
  | n :: rest =>
    match iterFold rest with
    | none => none
    | some l =>
      match opOf n with
      | some "create" => some ((.create, n) :: l)
      | some "delete" => some ((.delete, n) :: l)
      | some "replace" => some ((.replace, n) :: l)
      | some "none" => some l
      | some _ => none
      | none => some l

/-- Embedded from `DataDiff::iter` (`src/data.rs`): the filtered producer
over the diff tree's full traversal. -/
def DataDiff.iterOpt (d : Forest) : Option (List (DataDiffOp × DNode)) :=
  iterFold (traverseF d)

/-- The operation metadata values that denote an explicit change (spec §4.6). -/
def explicitOps : List String := ["create", "delete", "replace"]

/-- A node carries an explicit non-`none` operation metadata entry. -/
def hasExplicitNonNoneOp (n : DNode) : Bool :=
  match opOf n with
  | some v => explicitOps.contains v
  | none => false

/-- The diff operation denoted by a node's operation metadata (junk value
`replace` when the node carries none). -/
def opAsDiffOp (n : DNode) : DataDiffOp :=
  match opOf n with
  | some "create" => .create
  | some "delete" => .delete
  | _ => .replace

/-- A node's operation metadata value, when present, is one of the four the
diff engine produces (spec §3, Diff Tree invariant). -/
def opWellFormed (n : DNode) : Bool :=
  match opOf n with
  | none => true
  | some v => explicitOps.contains v || v == "none"

/-- Every operation metadata value in the tree is one of the four the diff
engine produces (spec §3, Diff Tree invariant). -/
def opsWellFormed (d : Forest) : Bool :=
  (traverseF d).all opWellFormed

/-- Modelled from the spec (§4.3 Siblings; `crate::iter::Siblings` is
outside `src/`): the producer starts at a node, or at nothing, and yields
the start node and then each subsequent node of its sibling chain.  A node's
position within its sibling chain is represented by the suffix of the chain
beginning at that node, so the producer yields exactly that suffix. -/
def siblingsProducer : Option (List DNode) → List DNode
  | none => []
  | some chain => chain

/-- Embedded from `DataNodeRef::next_sibling` (`src/data.rs`): the position
one step further along the sibling chain, if any. -/
def nextSiblingPos : List DNode → Option (List DNode)
  | [] => none
  | [_] => none
  | _ :: rest => some rest

/-- Embedded from `DataNodeRef::siblings` (`src/data.rs`): start the
Siblings producer at the node's next sibling. -/
def DataNodeRef.siblings (pos : List DNode) : List DNode :=
  siblingsProducer (nextSiblingPos pos)

/-- Whether an `Except` result is the error case. -/
def isErr {α : Type} : Except Error α → Bool
  | .error _ => true
  | .ok _ => false

/-- The error code of a failed result, if failed. -/
def errcodeOf {α : Type} : Except Error α → Option LYErr
  | .error e => some e.errcode
  | .ok _ => none

/-- A plain data node as compared by the Diff Engine, modelled from the spec
(§3, §4.6; `lyd_diff_siblings`, `lyd_diff_apply_all`, `lyd_dup_siblings` are
in the C library): instance identity, terminal value, ordered children.
Sibling chains are kept in canonical document order: identities strictly
increase along each chain (`wfF`), reflecting that nodes are matched between
the two compared trees by instance identity. -/
inductive TNode where
  | mk : Nat → Option String → List TNode → TNode

abbrev TForest := List TNode

def TNode.id : TNode → Nat
  | .mk i _ _ => i

def TNode.val : TNode → Option String
  | .mk _ v _ => v

def TNode.children : TNode → List TNode
  | .mk _ _ cs => cs

/-- The per-node operation of a diff tree (spec §3, §4.6): `create`,
`delete`, `replace` (carrying the `orig-value` auxiliary metadata), or the
`none` operation (constructor `nochange`). -/
inductive DOp where
  | create
  | delete
  | replace (orig : Option String)
  | nochange
  deriving DecidableEq, Repr

/-- A diff tree node, modelled from the spec (§3 Diff Tree): a mirrored
position carrying identity, the value contributed by the second tree, the
effective operation, and the mirrored children.  Inheritance of operations
is represented by storing each node's effective operation. -/
inductive DiffNode where
  | mk : Nat → Option String → DOp → List DiffNode → DiffNode

abbrev DForest := List DiffNode

def DiffNode.id : DiffNode → Nat
  | .mk i _ _ _ => i

def DiffNode.val : DiffNode → Option String
  | .mk _ v _ _ => v

def DiffNode.op : DiffNode → DOp
  | .mk _ _ o _ => o

def DiffNode.children : DiffNode → List DiffNode
  | .mk _ _ _ cs => cs

mutual
/-- Canonical document order: identities strictly increase along every
sibling chain. -/
def wfN : TNode → Bool
  | .mk _ _ cs => wfF cs

def wfF : TForest → Bool
  | [] => true
  | [n] => wfN n
  | n :: m :: rest => wfN n && decide (n.id < m.id) && wfF (m :: rest)
end

mutual
/-- A subtree present only in the second tree: every node of the copied
subtree has effective operation `create` (spec §4.6). -/
def markCreate : TNode → DiffNode
  | .mk i v cs => .mk i v .create (markCreateF cs)

def markCreateF : TForest → DForest
  | [] => []
  | n :: rest => markCreate n :: markCreateF rest
end

mutual
/-- A subtree present only in the first tree: every node of the copied
subtree has effective operation `delete` (spec §4.6). -/
def markDelete : TNode → DiffNode
  | .mk i v cs => .mk i v .delete (markDeleteF cs)

def markDeleteF : TForest → DForest
  | [] => []
  | n :: rest => markDelete n :: markDeleteF rest
end

mutual
/-- Strip the operations from a diff subtree, recovering the mirrored data
subtree (used when applying a `create`). -/
def toTree : DiffNode → TNode
  | .mk i v _ cs => .mk i v (toTreeF cs)

def toTreeF : DForest → TForest
  | [] => []
  | n :: rest => toTree n :: toTreeF rest
end

/-- Modelled from the spec (§4.6 Compute; `lyd_diff_siblings` is in the C
library): merge the two sibling chains by instance identity; a node present
only in the first tree yields a `delete` subtree, only in the second a
`create` subtree; a node present in both with different values yields a
`replace` recording the original value; with equal values it is emitted with
operation `none` as a structural ancestor only when some descendant
changed. -/
def diffF : TForest → TForest → DForest
  | [], [] => []
  | a :: la, [] => markDelete a :: diffF la []
  | [], b :: lb => markCreate b :: diffF [] lb
  | a :: la, b :: lb =>
    if a.id < b.id then markDelete a :: diffF la (b :: lb)
    else if b.id < a.id then markCreate b :: diffF (a :: la) lb
    else
      if a.val = b.val then
        if (diffF a.children b.children).isEmpty then diffF la lb
        else .mk b.id b.val .nochange (diffF a.children b.children) ::
          diffF la lb
      else .mk b.id b.val (.replace a.val) (diffF a.children b.children) ::
        diffF la lb
termination_by x y => sizeOf x + sizeOf y
decreasing_by
  all_goals simp_wf
  all_goals
    first
    | omega
    | (have h1 : sizeOf a.children < sizeOf a := by
         cases a with
         | mk i v cs => simp [TNode.children]; try omega
       have h2 : sizeOf b.children < sizeOf b := by
         cases b with
         | mk i v cs => simp [TNode.children]; try omega
       omega)

/-- Modelled from the spec (§4.6 Apply; `lyd_diff_apply_all` is in the C
library): walk the target sibling chain and the diff sibling chain in
document order, executing every operation — creating, deleting or replacing
nodes/values as directed — and failing with a PatchError when an operation
cannot be located or applied. -/
def applyF : TForest → DForest → Except String TForest
  | f, [] => .ok f
  | [], d :: ds =>
    match d.op with
    | .create => do
      let rest ← applyF [] ds
      .ok (toTree d :: rest)
    | _ => .error "Target node is absent"
  | a :: la, d :: ds =>
    if a.id < d.id then do
      let rest ← applyF la (d :: ds)
      .ok (a :: rest)
    else if d.id < a.id then
      match d.op with
      | .create => do
        let rest ← applyF (a :: la) ds
        .ok (toTree d :: rest)
      | _ => .error "Target node is absent"
    else
      match d.op with
      | .create => .error "Target node already exists"
      | .delete => applyF la ds
      | .replace _ => do
        let ch ← applyF a.children d.children
        let rest ← applyF la ds
        .ok (.mk d.id d.val ch :: rest)
      | .nochange => do
        let ch ← applyF a.children d.children
        let rest ← applyF la ds
        .ok (.mk d.id d.val ch :: rest)
termination_by x y => sizeOf x + sizeOf y
decreasing_by
  all_goals simp_wf
  all_goals
    first
    | omega
    | (have h1 : sizeOf a.children < sizeOf a := by
         cases a with
         | mk i v cs => simp [TNode.children]; try omega
       have h2 : sizeOf d.children < sizeOf d := by
         cases d with
         | mk i v o cs => simp [DiffNode.children]; try omega
       omega)

mutual
/-- Modelled from the spec (§4.6 Reverse; `lyd_diff_reverse_all` is in the C
library): swap `create` with `delete`, re-express `replace` with the
before/after values exchanged, leave `none` unaffected. -/
def revN : DiffNode → DiffNode
  | .mk i v .create cs => .mk i v .delete (revF cs)
  | .mk i v .delete cs => .mk i v .create (revF cs)
  | .mk i v (.replace o) cs => .mk i o (.replace v) (revF cs)
  | .mk i v .nochange cs => .mk i v .nochange (revF cs)

def revF : DForest → DForest
  | [] => []
  | n :: rest => revN n :: revF rest
end

mutual
/-- Modelled from the spec (§4.4 duplicate; `lyd_dup_siblings` with
`LYD_DUP_RECURSIVE | LYD_DUP_WITH_FLAGS` is in the C library): deep-copy
every top-level node and its subtree. -/
def dupN : TNode → TNode
  | .mk i v cs => .mk i v (dupF cs)

def dupF : TForest → TForest
  | [] => []
  | n :: rest => dupN n :: dupF rest
end

/-- Embedded from `DataTree::diff` (`src/data.rs`) over the modelled diff
computation. -/
def DataTree.diff (a b : TForest) : DForest := diffF a b

/-- Embedded from `DataTree::diff_apply` (`src/data.rs`) over the modelled
diff application. -/
def DataTree.diff_apply (t : TForest) (d : DForest) : Except String TForest :=
  applyF t d

/-- Embedded from `DataTree::duplicate` (`src/data.rs`) over the modelled
deep copy. -/
def DataTree.duplicate (t : TForest) : TForest := dupF t

/-- Embedded from `DataDiff::reverse` (`src/data.rs`) over the modelled
reversal. -/
def DataDiff.reverse (d : DForest) : DForest := revF d

/-- Concrete data used as inputs of witnesses and counterexamples: a tree of
two sibling leaves. -/
def cexNode1 : DNode := DNode.mk 1 .leaf (some "a") [] []

def cexNode2 : DNode := DNode.mk 2 .leaf (some "a") [] []

def cexTree : Forest := [cexNode1, cexNode2]

/-- A well-formed path matched by both leaves of `cexTree`. -/
def cexPathAll : XPath := ⟨"/mod:leaf", true, fun _ => true⟩

/-- A well-formed path matched by no node of `cexTree`. -/
def cexPathZero : XPath := ⟨"/mod:absent", true, fun _ => false⟩

/-- A well-formed path matched exactly by `cexNode2`. -/
def cexPathOne : XPath := ⟨"/mod:leaf2", true, fun n => n.id == 2⟩

/-- A diff tree carrying an operation metadata value outside the four the
diff engine produces. -/
def badOpDiff : Forest :=
  [DNode.mk 1 .leaf (some "x") [("operation", "remove")] []]

/-- A diff tree whose operation metadata values are all recognized. -/
def goodOpDiff : Forest :=
  [DNode.mk 1 .container none [("operation", "none")]
    [DNode.mk 2 .leaf (some "x") [("operation", "replace")] []],
   DNode.mk 3 .leaf (some "y") [("operation", "create")] [],
   DNode.mk 4 .leaf none [] []]

/-- Concrete trees for the diff/apply round trip. -/
def wTreeA : TForest :=
  [TNode.mk 1 (some "1") [], TNode.mk 2 none [TNode.mk 3 (some "x") []]]

def wTreeB : TForest :=
  [TNode.mk 1 (some "2") [], TNode.mk 2 none [TNode.mk 4 (some "y") []]]

/-- The identities of the nodes of a node's subtree. -/
def subtreeIds (n : DNode) : List Nat := (traverseN n).map DNode.id

/-- Whether a node lies outside a given subtree, judged by identity. -/
def outsideSubtree (n : DNode) (m : DNode) : Bool :=
  !(subtreeIds n).contains m.id

/-- All node identities of a tree are pairwise distinct (nodes are
identified by their instance identity). -/
abbrev idsUnique (t : Forest) : Prop := ((traverseF t).map DNode.id).Nodup

/-- Helper: every node is the first element of its own traversal. -/
theorem mem_traverseN_self (n : DNode) : n ∈ traverseN n := by
  cases n with
  | mk i k v mt cs =>
    rw [traverseN]
    exact List.mem_cons_self _ _

mutual
/-- Helper: traversal membership is closed under taking subtree members. -/
theorem mem_traverseF_trans (f : Forest) (n m : DNode)
    (hn : n ∈ traverseF f) (hm : m ∈ traverseN n) : m ∈ traverseF f := by
  cases f with
  | nil => simp [traverseF] at hn
  | cons a rest =>
    rw [traverseF] at hn ⊢
    rcases List.mem_append.mp hn with h | h
    · exact List.mem_append.mpr (Or.inl (mem_traverseN_trans a n m h hm))
    · exact List.mem_append.mpr (Or.inr (mem_traverseF_trans rest n m h hm))

theorem mem_traverseN_trans (x n m : DNode)
    (hn : n ∈ traverseN x) (hm : m ∈ traverseN n) : m ∈ traverseN x := by
  cases x with
  | mk i k v mt cs =>
    rw [traverseN] at hn ⊢
    rcases List.mem_cons.mp hn with h | h
    · subst h
      rw [traverseN] at hm
      exact hm
    · exact List.mem_cons_of_mem _ (mem_traverseF_trans cs n m h hm)
end

mutual
/-- Helper: removal by an identity not present in the forest is a no-op. -/
theorem removeByIdF_no_match (i : Nat) (f : Forest)
    (h : ∀ m ∈ traverseF f, m.id ≠ i) : removeByIdF i f = f := by
  cases f with
  | nil => rfl
  | cons x rest =>
    have hx : x.id ≠ i :=
      h x (by
        rw [traverseF]
        exact List.mem_append.mpr (Or.inl (mem_traverseN_self x)))
    have h1 : ∀ m ∈ traverseN x, m.id ≠ i := fun m hm =>
      h m (by rw [traverseF]; exact List.mem_append.mpr (Or.inl hm))
    have h2 : ∀ m ∈ traverseF rest, m.id ≠ i := fun m hm =>
      h m (by rw [traverseF]; exact List.mem_append.mpr (Or.inr hm))
    rw [removeByIdF, if_neg hx, removeByIdN_no_match i x h1,
      removeByIdF_no_match i rest h2]

theorem removeByIdN_no_match (i : Nat) (x : DNode)
    (h : ∀ m ∈ traverseN x, m.id ≠ i) : removeByIdN i x = x := by
  cases x with
  | mk j k v mt cs =>
    have h1 : ∀ m ∈ traverseF cs, m.id ≠ i := fun m hm =>
      h m (by rw [traverseN]; exact List.mem_cons_of_mem _ hm)
    rw [removeByIdN, removeByIdF_no_match i cs h1]
end

/-- Helper: with pairwise-distinct identities, removing a member node by its
identity removes exactly the nodes of that member's subtree from the
traversal; surviving nodes are compared by view, since an ancestor of the
removed node keeps its identity, kind, value and metadata but loses part of
its child list. -/
theorem removeById_subtree :
    ∀ (f : Forest) (n : DNode),
      ((traverseF f).map DNode.id).Nodup → n ∈ traverseF f →
      (traverseF (removeByIdF n.id f)).map DNode.view =
        ((traverseF f).filter (outsideSubtree n)).map DNode.view
  | [], n, hnd, hmem => by simp [traverseF] at hmem
  | DNode.mk i k v mt cs :: rest, n, hnd, hmem => by
      have htf : traverseF (DNode.mk i k v mt cs :: rest) =
          (DNode.mk i k v mt cs :: traverseF cs) ++ traverseF rest := by
        rw [traverseF, traverseN]
      by_cases hid : (DNode.mk i k v mt cs).id = n.id
      · have hxmem :
            DNode.mk i k v mt cs ∈ traverseF (DNode.mk i k v mt cs :: rest) := by
          rw [htf]
          exact List.mem_append.mpr (Or.inl (List.mem_cons_self _ _))
        have hxn : DNode.mk i k v mt cs = n :=
          List.inj_on_of_nodup_map hnd hxmem hmem hid
        have hrem : removeByIdF n.id (DNode.mk i k v mt cs :: rest) = rest := by
          rw [removeByIdF, if_pos hid]
        rw [htf] at hnd
        rw [List.map_append] at hnd
        have hdisj := List.disjoint_of_nodup_append hnd
        have hsub : (DNode.mk i k v mt cs :: traverseF cs).filter
            (outsideSubtree n) = [] := by
          apply List.filter_eq_nil_iff.mpr
          intro m hm
          have hmN : m ∈ traverseN n := by
            rw [← hxn, traverseN]
            exact hm
          simp [outsideSubtree, subtreeIds]
          exact ⟨m, hmN, rfl⟩
        have hkeep : (traverseF rest).filter (outsideSubtree n) =
            traverseF rest := by
          apply List.filter_eq_self.mpr
          intro m hm
          simp [outsideSubtree, subtreeIds]
          intro y hy hyid
          have hyx : y ∈ DNode.mk i k v mt cs :: traverseF cs := by
            rw [← traverseN, hxn]
            exact hy
          have hy_id : m.id ∈ (DNode.mk i k v mt cs :: traverseF cs).map
              DNode.id := hyid ▸ List.mem_map_of_mem _ hyx
          have hm_id : m.id ∈ (traverseF rest).map DNode.id :=
            List.mem_map_of_mem _ hm
          exact hdisj hy_id hm_id
        rw [hrem, htf, List.filter_append, hsub, hkeep]
        simp
      · have hrem : removeByIdF n.id (DNode.mk i k v mt cs :: rest) =
            removeByIdN n.id (DNode.mk i k v mt cs) ::
              removeByIdF n.id rest := by
          rw [removeByIdF, if_neg hid]
        rw [htf] at hmem hnd
        rw [List.map_append] at hnd
        have hnd1 := hnd.of_append_left
        have hnd2 := hnd.of_append_right
        have hdisj := List.disjoint_of_nodup_append hnd
        rcases List.mem_append.mp hmem with hnx | hnr
        · -- the removed node lies in the head subtree
          have hncs : n ∈ traverseF cs := by
            rcases List.mem_cons.mp hnx with h | h
            · exact absurd (congrArg DNode.id h.symm) hid
            · exact h
          have hndc : ((traverseF cs).map DNode.id).Nodup := by
            rw [List.map_cons] at hnd1
            exact (List.nodup_cons.mp hnd1).2
          have ih := removeById_subtree cs n hndc hncs
          have hnotrest : ∀ m ∈ traverseF rest, m.id ≠ n.id := by
            intro m hm hmn
            have hn_id : n.id ∈ (DNode.mk i k v mt cs :: traverseF cs).map
                DNode.id := List.mem_map_of_mem _ hnx
            have hm_id : m.id ∈ (traverseF rest).map DNode.id :=
              List.mem_map_of_mem _ hm
            rw [hmn] at hm_id
            exact hdisj hn_id hm_id
          have hrest_eq : removeByIdF n.id rest = rest :=
            removeByIdF_no_match n.id rest hnotrest
          have hx_kept : outsideSubtree n (DNode.mk i k v mt cs) = true := by
            simp [outsideSubtree, subtreeIds]
            intro y hy hyid
            have hycs : y ∈ traverseF cs := mem_traverseF_trans cs n y hncs hy
            have hyin : y.id ∈ (traverseF cs).map DNode.id :=
              List.mem_map_of_mem _ hycs
            rw [List.map_cons] at hnd1
            exact (List.nodup_cons.mp hnd1).1 (hyid ▸ hyin)
          have hrest_kept : (traverseF rest).filter (outsideSubtree n) =
              traverseF rest := by
            apply List.filter_eq_self.mpr
            intro m hm
            simp [outsideSubtree, subtreeIds]
            intro y hy hyid
            have hycs : y ∈ traverseF cs := mem_traverseF_trans cs n y hncs hy
            have hyin : m.id ∈ (DNode.mk i k v mt cs :: traverseF cs).map
                DNode.id :=
              hyid ▸ List.mem_map_of_mem _ (List.mem_cons_of_mem _ hycs)
            have hmid : m.id ∈ (traverseF rest).map DNode.id :=
              List.mem_map_of_mem _ hm
            exact hdisj hyin hmid
          rw [hrem, hrest_eq, removeByIdN, htf]
          rw [List.filter_append, List.filter_cons, hrest_kept]
          simp only [hx_kept, if_true]
          rw [traverseF, traverseN]
          simp [DNode.view, ih]
        · -- the removed node lies among the later siblings
          have hnot_head : ∀ m ∈ traverseN (DNode.mk i k v mt cs),
              m.id ≠ n.id := by
            intro m hm hmn
            have hm_id : m.id ∈ (DNode.mk i k v mt cs :: traverseF cs).map
                DNode.id := by
              rw [← traverseN]
              exact List.mem_map_of_mem _ hm
            have hn_id : n.id ∈ (traverseF rest).map DNode.id :=
              List.mem_map_of_mem _ hnr
            rw [hmn] at hm_id
            exact hdisj hm_id hn_id
          have hhead_eq : removeByIdN n.id (DNode.mk i k v mt cs) =
              DNode.mk i k v mt cs :=
            removeByIdN_no_match n.id (DNode.mk i k v mt cs) hnot_head
          have ih := removeById_subtree rest n hnd2 hnr
          have hhead_kept : (DNode.mk i k v mt cs :: traverseF cs).filter
              (outsideSubtree n) = DNode.mk i k v mt cs :: traverseF cs := by
            apply List.filter_eq_self.mpr
            intro m hm
            simp [outsideSubtree, subtreeIds]
            intro y hy hyid
            have hyr : y ∈ traverseF rest := mem_traverseF_trans rest n y hnr hy
            have hyin : m.id ∈ (traverseF rest).map DNode.id :=
              hyid ▸ List.mem_map_of_mem _ hyr
            have hmid : m.id ∈ (DNode.mk i k v mt cs :: traverseF cs).map
                DNode.id := List.mem_map_of_mem _ hm
            exact hdisj hmid hyin
          rw [hrem, hhead_eq, htf]
          rw [List.filter_append, hhead_kept]
          rw [traverseF]
          simp [ih, traverseN]
termination_by f _ _ _ => sizeOf f
decreasing_by
  all_goals simp_wf
  all_goals omega

/-- C8: for every node, value retrieval returns the canonical (normalized)
string form of the node's value when the node's schema kind is terminal
(leaf or leaf-list entry), and returns an absent result for every
non-terminal node. -/
theorem value_terminal_canonical (n : DNode) :
    ((n.kind = .leaf ∨ n.kind = .leafList) → n.value = n.canonical)
    ∧ ((n.kind ≠ .leaf ∧ n.kind ≠ .leafList) → n.value = none) := by
  constructor
  · rintro (h | h) <;> simp [DNode.value, h]
  · rintro ⟨h1, h2⟩
    cases hk : n.kind <;> simp [DNode.value, hk] <;> simp_all

/-- Witness for C8 at concrete terminal and non-terminal nodes. -/
theorem value_terminal_canonical_witness :
    (DNode.mk 1 .leaf (some "5") [] []).value = some "5"
    ∧ (DNode.mk 2 .container none [] [cexNode1]).value = none :=
  ⟨(value_terminal_canonical (DNode.mk 1 .leaf (some "5") [] [])).1
      (Or.inl rfl),
   (value_terminal_canonical (DNode.mk 2 .container none [] [cexNode1])).2
      ⟨by simp [DNode.kind], by simp [DNode.kind]⟩⟩

/-- C5 counterexample: invoked on the first of two chained siblings, the
`siblings` producer of `DataNodeRef` does not yield the node itself first —
it yields only the following sibling. -/
theorem siblings_includes_self_cex :
    DataNodeRef.siblings [cexNode1, cexNode2] ≠ [cexNode1, cexNode2] := by
  intro h
  have hl := congrArg List.length h
  simp [DataNodeRef.siblings, nextSiblingPos, siblingsProducer] at hl

/-- C5 (amended): the `siblings` producer invoked on a node N yields each
node that follows N in its sibling chain, in document order, terminating at
the chain end — N itself is excluded (the producer is started at N's next
sibling). -/
theorem siblings_yields_following (n : DNode) (rest : List DNode) :
    DataNodeRef.siblings (n :: rest) = rest := by
  cases rest <;> rfl

/-- C7: creating an empty tree immediately validates it (empty validation
flags, so no state-data restriction); the creation fails — with a
ValidationError — exactly when that validation of the empty tree fails, and
over a schema context without top-level mandatory nodes it succeeds with a
tree whose traversal is empty. -/
theorem new_empty_validates (ctx : SContext) :
    (isErr (DataTree.new ctx) = isErr (validateTree ctx ⟨false, false⟩ []))
    ∧ (∀ e, DataTree.new ctx = .error e → e.errcode = .LY_EVALID)
    ∧ (ctx.mandatoryTopLevel = [] →
        DataTree.new ctx = .ok [] ∧ traverseF [] = []) := by
  refine ⟨?_, ?_, ?_⟩
  · cases hv : validateTree ctx ⟨false, false⟩ [] <;>
      simp [DataTree.new, hv, isErr]
  · intro e he
    cases hml : ctx.mandatoryTopLevel with
    | nil => simp [DataTree.new, validateTree, hml] at he
    | cons x xs =>
      simp [DataTree.new, validateTree, hml] at he
      subst he
      rfl
  · intro h
    refine ⟨?_, rfl⟩
    simp [DataTree.new, validateTree, h]

/-- Witness for C7 at a schema context without mandatory nodes. -/
theorem new_empty_validates_witness :
    DataTree.new ⟨[]⟩ = .ok [] ∧ traverseF [] = [] :=
  (new_empty_validates ⟨[]⟩).2.2 rfl

/-- C10: `find` on a well-formed path matching zero nodes succeeds with an
empty result set (iterating it yields nothing) rather than returning an
error; `find` fails exactly when evaluation of the expression itself
fails. -/
theorem find_zero_matches_ok (t : Forest) (p : XPath) :
    (p.wellFormed = true → matchesOf t p = [] → Data.find t p = .ok [])
    ∧ (isErr (Data.find t p) = true ↔ p.wellFormed = false) := by
  constructor
  · intro hwf hm
    simp [Data.find, xpathEval, hwf, hm]
  · cases hwf : p.wellFormed <;>
      simp [Data.find, xpathEval, hwf, isErr]

/-- Witness for C10 at a concrete tree and a path matching nothing. -/
theorem find_zero_matches_ok_witness :
    Data.find cexTree cexPathZero = .ok [] :=
  (find_zero_matches_ok cexTree cexPathZero).1 rfl rfl

/-- C1 counterexample: on a path matching two nodes and on a path matching
zero nodes, `find_single` fails with the SAME error code `LY_ENOTFOUND`; the
more-than-one-match failure is not a distinct error kind from the not-found
failure. -/
theorem find_single_same_errcode_cex :
    errcodeOf (Data.find_single cexTree cexPathAll) = some .LY_ENOTFOUND
    ∧ errcodeOf (Data.find_single cexTree cexPathZero) =
        some .LY_ENOTFOUND := ⟨rfl, rfl⟩

/-- C1 (amended): `find_single` on a well-formed path matching zero nodes
returns the not-found error, on exactly one match returns that node, and on
two or more matches returns the more-than-one-node error; the two failures
carry the queried path string in their payload and are distinguished by
message, but share the error code `LY_ENOTFOUND`. -/
theorem find_single_cardinality (t : Forest) (p : XPath)
    (hwf : p.wellFormed = true) :
    (matchesOf t p = [] →
      Data.find_single t p =
        .error ⟨.LY_ENOTFOUND, some "Data node not found", some p.str, none⟩)
    ∧ (∀ n, matchesOf t p = [n] → Data.find_single t p = .ok n)
    ∧ (∀ n m rest, matchesOf t p = n :: m :: rest →
      Data.find_single t p =
        .error ⟨.LY_ENOTFOUND, some "Path refers to more than one data node",
          some p.str, none⟩) := by
  refine ⟨?_, ?_, ?_⟩
  · intro hm
    simp [Data.find_single, Data.find, xpathEval, hwf, hm]
  · intro n hm
    simp [Data.find_single, Data.find, xpathEval, hwf, hm]
  · intro n m rest hm
    simp [Data.find_single, Data.find, xpathEval, hwf, hm]

/-- Witness for C1 at a concrete tree: the ambiguous case, the not-found
case and the single-match case. -/
theorem find_single_cardinality_witness :
    Data.find_single cexTree cexPathAll =
      .error ⟨.LY_ENOTFOUND, some "Path refers to more than one data node",
        some "/mod:leaf", none⟩
    ∧ Data.find_single cexTree cexPathZero =
      .error ⟨.LY_ENOTFOUND, some "Data node not found",
        some "/mod:absent", none⟩
    ∧ Data.find_single cexTree cexPathOne = .ok cexNode2 :=
  ⟨(find_single_cardinality cexTree cexPathAll rfl).2.2 cexNode1 cexNode2 []
      rfl,
   (find_single_cardinality cexTree cexPathZero rfl).1 rfl,
   (find_single_cardinality cexTree cexPathOne rfl).2.1 cexNode2 rfl⟩

/-- C6: `remove` resolves the path via the single-result query mode: on a
path matching exactly one node it succeeds and deletes that node's entire
subtree (the remaining traversal is the original one minus exactly the
nodes of the matched node's subtree, surviving nodes compared by view); on
zero or two-or-more matches it fails and leaves the tree unchanged. -/
theorem remove_cardinality (t : Forest) (p : XPath)
    (hwf : p.wellFormed = true) (huniq : idsUnique t) :
    (matchesOf t p = [] →
      DataTree.remove t p =
        (.error ⟨.LY_ENOTFOUND, some "Data node not found", some p.str,
          none⟩, t))
    ∧ (∀ n m rest, matchesOf t p = n :: m :: rest →
      DataTree.remove t p =
        (.error ⟨.LY_ENOTFOUND,
          some "Path refers to more than one data node", some p.str,
          none⟩, t))
    ∧ (∀ n, matchesOf t p = [n] →
      (DataTree.remove t p).1 = .ok () ∧
      (traverseF (DataTree.remove t p).2).map DNode.view =
        ((traverseF t).filter (outsideSubtree n)).map DNode.view) := by
  refine ⟨?_, ?_, ?_⟩
  · intro hm
    simp [DataTree.remove, Data.find_single, Data.find, xpathEval, hwf, hm]
  · intro n m rest hm
    simp [DataTree.remove, Data.find_single, Data.find, xpathEval, hwf, hm]
  · intro n hm
    have hrm : DataTree.remove t p = (.ok (), removeByIdF n.id t) := by
      simp [DataTree.remove, Data.find_single, Data.find, xpathEval, hwf, hm]
    have hnmem : n ∈ traverseF t := by
      have hn : n ∈ matchesOf t p := by
        rw [hm]
        exact List.mem_cons_self _ _
      exact List.mem_of_mem_filter hn
    rw [hrm]
    exact ⟨rfl, removeById_subtree t n huniq hnmem⟩

/-- Witness for C6: removing via a path matched exactly by the second leaf
of the concrete two-leaf tree succeeds and the survivors are exactly the
non-subtree nodes. -/
theorem remove_cardinality_witness :
    (DataTree.remove cexTree cexPathOne).1 = .ok ()
    ∧ (traverseF (DataTree.remove cexTree cexPathOne).2).map DNode.view =
      ((traverseF cexTree).filter (outsideSubtree cexNode2)).map
        DNode.view :=
  (remove_cardinality cexTree cexPathOne rfl (by decide)).2.2 cexNode2 rfl

/-- Helper: over any node list whose operation metadata values are among the
four recognized ones, the `filter_map` body of `DataDiff::iter` completes
without reaching the `unreachable!` branch and computes the
filter-by-explicit-operation projection. -/
theorem iterFold_eq_filter (l : List DNode) (h : l.all opWellFormed = true) :
    iterFold l =
      some ((l.filter hasExplicitNonNoneOp).map
        (fun n => (opAsDiffOp n, n))) := by
  induction l with
  | nil => rfl
  | cons n rest ih =>
    simp only [List.all_cons, Bool.and_eq_true] at h
    obtain ⟨hn, hrest⟩ := h
    cases ho : opOf n with
    | none =>
      simp [iterFold, ho, hasExplicitNonNoneOp, ih hrest]
    | some v =>
      have hv : v = "create" ∨ v = "delete" ∨ v = "replace" ∨ v = "none" := by
        simp [opWellFormed, ho, explicitOps] at hn
        tauto
      rcases hv with h1 | h1 | h1 | h1 <;> subst h1 <;>
        simp [iterFold, ho, hasExplicitNonNoneOp, opAsDiffOp, explicitOps,
          ih hrest]

/-- C4: for every diff tree whose operation metadata values are among the
four the diff engine produces, `iter` yields exactly those nodes of the diff
tree's full traversal that carry an explicit operation metadata entry whose
value is create, delete or replace, as (operation, node) pairs in traversal
order; nodes with no operation metadata entry and nodes whose operation
metadata value is `none` are excluded. -/
theorem diff_iter_filters (d : Forest) (h : opsWellFormed d = true) :
    DataDiff.iterOpt d =
      some (((traverseF d).filter hasExplicitNonNoneOp).map
        (fun n => (opAsDiffOp n, n))) :=
  iterFold_eq_filter (traverseF d) h

/-- Witness for C4 at a concrete diff tree mixing an inherited-`none`
ancestor, an explicit replace, an explicit create, and a node without
operation metadata. -/
theorem diff_iter_filters_witness :
    DataDiff.iterOpt goodOpDiff =
      some [(DataDiffOp.replace,
              DNode.mk 2 .leaf (some "x") [("operation", "replace")] []),
            (DataDiffOp.create,
              DNode.mk 3 .leaf (some "y") [("operation", "create")] [])] := by
  rw [diff_iter_filters goodOpDiff rfl]
  rfl

/-- C9: under the precondition that every operation metadata value in the
diff tree is create, delete, replace or none, the `unreachable!` branch of
`DataDiff::iter` is never reached (the iteration completes); without that
precondition, `iter` panics (modelled as `none`) on a node whose operation
metadata carries any other value — here "remove" — instead of returning an
error. -/
theorem iter_unreachable_safety :
    (∀ d : Forest, opsWellFormed d = true →
      (DataDiff.iterOpt d).isSome = true)
    ∧ DataDiff.iterOpt badOpDiff = none := by
  constructor
  · intro d h
    have he := iterFold_eq_filter (traverseF d) h
    simp [DataDiff.iterOpt, he]
  · rfl

/-- Witness for C9 at a concrete well-formed diff tree. -/
theorem iter_unreachable_safety_witness :
    (DataDiff.iterOpt goodOpDiff).isSome = true :=
  iter_unreachable_safety.1 goodOpDiff rfl

/-- Helper: binding a successful `Except` value applies the continuation. -/
theorem except_ok_bind {α β : Type} (a : α) (f : α → Except String β) :
    (Except.ok a >>= f) = f a := rfl

mutual
/-- Helper: reversing a diff node twice is the identity. -/
theorem revN_revN (n : DiffNode) : revN (revN n) = n := by
  cases n with
  | mk i v o cs =>
    cases o with
    | create => rw [revN, revN, revF_revF]
    | delete => rw [revN, revN, revF_revF]
    | replace orig => rw [revN, revN, revF_revF]
    | nochange => rw [revN, revN, revF_revF]

theorem revF_revF (l : DForest) : revF (revF l) = l := by
  cases l with
  | nil => rfl
  | cons n rest => rw [revF, revF, revN_revN, revF_revF]
end

/-- C3: for every diff tree, reversing twice is the identity,
operation-for-operation, where a single reverse swaps `create` with
`delete`, exchanges the before/after values of `replace` (see `revN`), and
leaves `none` unchanged. -/
theorem reverse_involution (d : DForest) :
    DataDiff.reverse (DataDiff.reverse d) = d := revF_revF d

mutual
/-- Helper: the modelled deep copy is the identity on the copied data. -/
theorem dupN_eq (n : TNode) : dupN n = n := by
  cases n with
  | mk i v cs => rw [dupN, dupF_eq]

theorem dupF_eq (f : TForest) : dupF f = f := by
  cases f with
  | nil => rfl
  | cons n rest => rw [dupF, dupN_eq, dupF_eq]
end

mutual
/-- Helper: stripping the operations from a create-marked copy recovers the
original subtree. -/
theorem toTree_markCreate (n : TNode) : toTree (markCreate n) = n := by
  cases n with
  | mk i v cs => rw [markCreate, toTree, toTreeF_markCreateF]

theorem toTreeF_markCreateF (f : TForest) : toTreeF (markCreateF f) = f := by
  cases f with
  | nil => rfl
  | cons n rest => rw [markCreateF, toTreeF, toTree_markCreate,
      toTreeF_markCreateF]
end

/-- Helper: marking preserves the identity and sets the operation. -/
theorem markCreate_id (n : TNode) : (markCreate n).id = n.id := by
  cases n with
  | mk i v cs => rfl

theorem markCreate_op (n : TNode) : (markCreate n).op = .create := by
  cases n with
  | mk i v cs => rfl

theorem markDelete_id (n : TNode) : (markDelete n).id = n.id := by
  cases n with
  | mk i v cs => rfl

theorem markDelete_op (n : TNode) : (markDelete n).op = .delete := by
  cases n with
  | mk i v cs => rfl

/-- Helper: a well-formed node has well-formed children. -/
theorem wfN_children (a : TNode) (h : wfN a = true) :
    wfF a.children = true := by
  cases a with
  | mk i v cs =>
    rw [wfN] at h
    exact h

/-- Helper: unpacking canonical order of a nonempty chain: the head is
well formed, the tail is well formed, and the head's identity is strictly
below every tail identity. -/
theorem wfF_cons :
    ∀ (n : TNode) (rest : TForest), wfF (n :: rest) = true →
      wfN n = true ∧ wfF rest = true ∧ ∀ m ∈ rest, n.id < m.id
  | n, [], h => ⟨h, rfl, by simp⟩
  | n, m :: rest, h => by
    rw [wfF] at h
    simp only [Bool.and_eq_true, decide_eq_true_eq] at h
    obtain ⟨⟨hn, hlt⟩, hrest⟩ := h
    have ih := wfF_cons m rest hrest
    refine ⟨hn, hrest, ?_⟩
    intro k hk
    rcases List.mem_cons.mp hk with h | h
    · rw [h]
      exact hlt
    · exact Nat.lt_trans hlt (ih.2.2 k h)

/-- Helper: applying an empty diff is the identity. -/
theorem applyF_nil (f : TForest) : applyF f [] = .ok f := by
  cases f <;> simp [applyF]

/-- Helper: an empty diff is only produced for identical forests. -/
theorem diffF_eq_nil :
    ∀ (la lb : TForest), diffF la lb = [] → la = lb
  | [], [], _ => rfl
  | a :: la, [], h => by
    rw [diffF] at h
    exact absurd h (by simp)
  | [], b :: lb, h => by
    rw [diffF] at h
    exact absurd h (by simp)
  | a :: la, b :: lb, h => by
    rw [diffF] at h
    by_cases h1 : a.id < b.id
    · rw [if_pos h1] at h
      exact absurd h (by simp)
    · rw [if_neg h1] at h
      by_cases h2 : b.id < a.id
      · rw [if_pos h2] at h
        exact absurd h (by simp)
      · rw [if_neg h2] at h
        by_cases h3 : a.val = b.val
        · rw [if_pos h3] at h
          by_cases h4 : (diffF a.children b.children).isEmpty = true
          · rw [if_pos h4] at h
            have hch : a.children = b.children :=
              diffF_eq_nil a.children b.children
                (List.isEmpty_iff.mp h4)
            have hid : a.id = b.id := by omega
            have htl : la = lb := diffF_eq_nil la lb h
            cases a with
            | mk i v cs =>
              cases b with
              | mk j w ds =>
                simp only [TNode.id] at hid
                simp only [TNode.val] at h3
                simp only [TNode.children] at hch
                rw [hid, h3, hch, htl]
          · rw [if_neg h4] at h
            exact absurd h (by simp)
        · rw [if_neg h3] at h
          exact absurd h (by simp)
termination_by la lb => sizeOf la + sizeOf lb
decreasing_by
  all_goals simp_wf
  all_goals
    first
    | omega
    | (have ha : sizeOf a.children < sizeOf a := by
         cases a with
         | mk i v cs => simp [TNode.children]; try omega
       have hb : sizeOf b.children < sizeOf b := by
         cases b with
         | mk i v cs => simp [TNode.children]; try omega
       omega)

/-- Helper: every top-level node of a computed diff takes its identity from
a top-level node of one of the two compared chains; hence a uniform strict
lower bound on the input identities bounds the diff identities. -/
theorem diffF_id_lb :
    ∀ (c : Nat) (la lb : TForest),
      (∀ x ∈ la, c < x.id) → (∀ y ∈ lb, c < y.id) →
      ∀ d ∈ diffF la lb, c < d.id
  | c, [], [], _, _, d, hd => by
    rw [diffF] at hd
    exact absurd hd (List.not_mem_nil d)
  | c, a :: la, [], hla, hlb, d, hd => by
    rw [diffF] at hd
    rcases List.mem_cons.mp hd with h | h
    · rw [h, markDelete_id]
      exact hla a (List.mem_cons_self _ _)
    · exact diffF_id_lb c la []
        (fun x hx => hla x (List.mem_cons_of_mem _ hx)) hlb d h
  | c, [], b :: lb, hla, hlb, d, hd => by
    rw [diffF] at hd
    rcases List.mem_cons.mp hd with h | h
    · rw [h, markCreate_id]
      exact hlb b (List.mem_cons_self _ _)
    · exact diffF_id_lb c [] lb hla
        (fun y hy => hlb y (List.mem_cons_of_mem _ hy)) d h
  | c, a :: la, b :: lb, hla, hlb, d, hd => by
    have hla' : ∀ x ∈ la, c < x.id :=
      fun x hx => hla x (List.mem_cons_of_mem _ hx)
    have hlb' : ∀ y ∈ lb, c < y.id :=
      fun y hy => hlb y (List.mem_cons_of_mem _ hy)
    rw [diffF] at hd
    by_cases h1 : a.id < b.id
    · rw [if_pos h1] at hd
      rcases List.mem_cons.mp hd with h | h
      · rw [h, markDelete_id]
        exact hla a (List.mem_cons_self _ _)
      · exact diffF_id_lb c la (b :: lb) hla' hlb d h
    · rw [if_neg h1] at hd
      by_cases h2 : b.id < a.id
      · rw [if_pos h2] at hd
        rcases List.mem_cons.mp hd with h | h
        · rw [h, markCreate_id]
          exact hlb b (List.mem_cons_self _ _)
        · exact diffF_id_lb c (a :: la) lb hla hlb' d h
      · rw [if_neg h2] at hd
        by_cases h3 : a.val = b.val
        · rw [if_pos h3] at hd
          by_cases h4 : (diffF a.children b.children).isEmpty = true
          · rw [if_pos h4] at hd
            exact diffF_id_lb c la lb hla' hlb' d hd
          · rw [if_neg h4] at hd
            rcases List.mem_cons.mp hd with h | h
            · rw [h]
              exact hlb b (List.mem_cons_self _ _)
            · exact diffF_id_lb c la lb hla' hlb' d h
        · rw [if_neg h3] at hd
          rcases List.mem_cons.mp hd with h | h
          · rw [h]
            exact hlb b (List.mem_cons_self _ _)
          · exact diffF_id_lb c la lb hla' hlb' d h
termination_by _ la lb => sizeOf la + sizeOf lb
decreasing_by
  all_goals simp_wf
  all_goals omega

/-- Helper: applying the computed diff of two canonically ordered forests to
the first forest reconstructs the second. -/
theorem applyF_diffF :
    ∀ (la lb : TForest), wfF la = true → wfF lb = true →
      applyF la (diffF la lb) = .ok lb
  | [], [], _, _ => by
    rw [diffF]
    exact applyF_nil []
  | a :: la, [], ha, hb => by
    obtain ⟨haN, haF, haLt⟩ := wfF_cons a la ha
    have ih := applyF_diffF la [] haF hb
    rw [diffF]
    simp [applyF, markDelete_id, markDelete_op, ih]
  | [], b :: lb, ha, hb => by
    obtain ⟨hbN, hbF, hbLt⟩ := wfF_cons b lb hb
    have ih := applyF_diffF [] lb ha hbF
    rw [diffF]
    simp [applyF, markCreate_op, toTree_markCreate, ih, except_ok_bind]
  | a :: la, b :: lb, ha, hb => by
    obtain ⟨haN, haF, haLt⟩ := wfF_cons a la ha
    obtain ⟨hbN, hbF, hbLt⟩ := wfF_cons b lb hb
    rw [diffF]
    by_cases h1 : a.id < b.id
    · rw [if_pos h1]
      have ih := applyF_diffF la (b :: lb) haF hb
      simp [applyF, markDelete_id, markDelete_op, ih]
    · rw [if_neg h1]
      by_cases h2 : b.id < a.id
      · rw [if_pos h2]
        have ih := applyF_diffF (a :: la) lb ha hbF
        simp [applyF, markCreate_id, markCreate_op, toTree_markCreate, ih,
          except_ok_bind, h1, h2]
      · rw [if_neg h2]
        have hid : a.id = b.id := by omega
        by_cases h3 : a.val = b.val
        · rw [if_pos h3]
          by_cases h4 : (diffF a.children b.children).isEmpty = true
          · rw [if_pos h4]
            have hch : a.children = b.children :=
              diffF_eq_nil a.children b.children (List.isEmpty_iff.mp h4)
            have hab : a = b := by
              cases a with
              | mk i v cs =>
                cases b with
                | mk j w ds =>
                  simp only [TNode.id] at hid
                  simp only [TNode.val] at h3
                  simp only [TNode.children] at hch
                  rw [hid, h3, hch]
            subst hab
            cases hD : diffF la lb with
            | nil =>
              have htl : la = lb := diffF_eq_nil la lb hD
              rw [applyF_nil, htl]
            | cons d ds =>
              have hdlb : a.id < d.id := by
                have hmem : d ∈ diffF la lb := by
                  rw [hD]
                  exact List.mem_cons_self _ _
                apply diffF_id_lb a.id la lb haLt ?_ d hmem
                intro y hy
                rw [hid]
                exact hbLt y hy
              have ih := applyF_diffF la lb haF hbF
              rw [hD] at ih
              simp [applyF, hdlb, ih, except_ok_bind]
          · rw [if_neg h4]
            have ihc := applyF_diffF a.children b.children
              (wfN_children a haN) (wfN_children b hbN)
            have ih := applyF_diffF la lb haF hbF
            have hb_eq : TNode.mk b.id b.val b.children = b := by
              cases b with
              | mk j w ds => rfl
            simp [applyF, DiffNode.id, DiffNode.op, DiffNode.children,
              DiffNode.val, h1, h2, ihc, ih, except_ok_bind, hb_eq]
        · rw [if_neg h3]
          have ihc := applyF_diffF a.children b.children
            (wfN_children a haN) (wfN_children b hbN)
          have ih := applyF_diffF la lb haF hbF
          have hb_eq : TNode.mk b.id b.val b.children = b := by
            cases b with
            | mk j w ds => rfl
          simp [applyF, DiffNode.id, DiffNode.op, DiffNode.children,
            DiffNode.val, h1, h2, ihc, ih, except_ok_bind, hb_eq]
termination_by la lb _ _ => sizeOf la + sizeOf lb
decreasing_by
  all_goals simp_wf
  all_goals
    first
    | omega
    | (have hca : sizeOf a.children < sizeOf a := by
         cases a with
         | mk i v cs => simp [TNode.children]; try omega
       have hcb : sizeOf b.children < sizeOf b := by
         cases b with
         | mk i v cs => simp [TNode.children]; try omega
       omega)

/-- C2: for all canonically ordered trees A and B, applying diff(A, B) to a
duplicate of A yields a tree equal to B (the modelled diff computation is
total, so the claim's "trees that diff succeeds on" is every pair of
canonically ordered trees). -/
theorem diff_apply_roundtrip (A B : TForest)
    (hA : wfF A = true) (hB : wfF B = true) :
    DataTree.diff_apply (DataTree.duplicate A) (DataTree.diff A B) =
      .ok B := by
  rw [DataTree.diff_apply, DataTree.duplicate, DataTree.diff, dupF_eq]
  exact applyF_diffF A B hA hB

/-- Witness for C2 at two concrete trees differing by a replaced value, a
deleted subtree node and a created subtree node. -/
theorem diff_apply_roundtrip_witness :
    DataTree.diff_apply (DataTree.duplicate wTreeA)
      (DataTree.diff wTreeA wTreeB) = .ok wTreeB :=
  diff_apply_roundtrip wTreeA wTreeB rfl rfl

end Yang2
